import Mathlib

/-!
Verification of the wheel-handling module (`packaging/whl.py`).

The Python source is shallowly embedded below.  Pure string manipulation
(`str.split`, `re.split`, `re.sub`, `re.search` on the fixed patterns used by
the source) is modelled by structurally recursive functions on `List Char`;
the zip archive is modelled as a function from member names to read results;
exceptions are modelled with `Option`/`Except`; the external collaborators
(`json.loads`, `pkg_resources.evaluate_marker`) are parameters.
-/

deriving instance DecidableEq for Except

namespace Whl

/-! ### Models of the Python string primitives used by the source -/

/-- Model of Python `str.split(sep)` for a one-character separator, and of
`re.split('[c...]', s)` for a single-character class: split at every
occurrence of a character of `delims`, keeping empty segments.  The result is
always non-empty (Python's `split` never returns an empty list). -/
def pySplitChars (delims : List Char) : List Char → List (List Char)
  | [] => [[]]
  | c :: rest =>
    if c ∈ delims then [] :: pySplitChars delims rest
    else
      match pySplitChars delims rest with
      | [] => [[c]]
      | p :: ps => (c :: p) :: ps

/-- Model of Python `re.sub('[c...]', repl, s)` for a single-character class
and a one-character replacement: replace each matching character. -/
def reSubChars (cls : List Char) (repl : Char) (l : List Char) : List Char :=
  l.map fun c => if c ∈ cls then repl else c

/-- Model of Python `s.endswith(t)` for a one-character string `t`. -/
def endsWithChar (s : String) (c : Char) : Bool :=
  match s.toList.getLast? with
  | some d => d == c
  | none => false

/-! ### Identity parser (`basename`, `distribution`, `version`,
`repository_suffix`, `_dist_info`) -/

/-- Model of `os.path.basename` (POSIX): the text after the last `/`,
equivalently the last segment of splitting on `/`. -/
def basename (p : String) : String :=
  ((pySplitChars ['/'] p.toList).getLastD []).asString

/-- The segments of `self.basename().split('-')` in `Wheel.distribution` /
`Wheel.version`. -/
def wheelParts (p : String) : List (List Char) :=
  pySplitChars ['-'] (basename p).toList

/-- `Wheel.distribution`: `parts[0]` of the basename split on `-`.
A Python `IndexError` is modelled as `none`. -/
def distribution (p : String) : Option String :=
  ((wheelParts p)[0]?).map List.asString

/-- `Wheel.version`: `parts[1]` of the basename split on `-`.
A Python `IndexError` is modelled as `none`. -/
def version (p : String) : Option String :=
  ((wheelParts p)[1]?).map List.asString

/-- The pure part of `Wheel.repository_suffix`: format
`pypi__{distribution}_{version}` and then `re.sub('[-.+]', '_', canonical)`. -/
def repositorySuffixOf (d v : String) : String :=
  (reSubChars ['-', '.', '+'] '_' ("pypi__" ++ d ++ "_" ++ v).toList).asString

/-- `Wheel.repository_suffix`, propagating a failure of `distribution` or
`version`. -/
def repository_suffix (p : String) : Option String := do
  let d ← distribution p
  let v ← version p
  pure (repositorySuffixOf d v)

/-- `Wheel._dist_info`: `'{}-{}.dist-info'.format(distribution, version)`. -/
def dist_info (p : String) : Option String := do
  let d ← distribution p
  let v ← version p
  pure (d ++ "-" ++ v ++ ".dist-info")

/-! ### Metadata record and the flat-form decoder (`_parse_metadata`) -/

/-- One entry of the `run_requires` list of a metadata record.  Absent keys of
the Python dict are modelled as `none` / `[]`, matching the defaults used by
the source's `.get` calls. -/
structure RequirementGroup where
  extra : Option String
  environment : Option String
  requires : List String
deriving DecidableEq

/-- The decoded metadata record.  Only the keys the source reads are kept,
with the defaults of the source's `.get` calls. -/
structure Metadata where
  name : Option String
  run_requires : List RequirementGroup
  extras : List String
deriving DecidableEq

/-- The literal part of the pattern `'Name: (.*)'` of `_parse_metadata`. -/
def nameTag : List Char := "Name: ".toList

/-- Model of `re.compile('Name: (.*)').search(content)`, returning `group(1)`:
scan left to right for the first position where the literal `"Name: "`
occurs; the capture `(.*)` then greedily extends to the end of the line
(`.` does not match a newline). -/
def searchNameCapture : List Char → Option (List Char)
  | [] => none
  | c :: rest =>
    if List.take nameTag.length (c :: rest) = nameTag then
      some ((List.drop nameTag.length (c :: rest)).takeWhile (fun ch => ch != '\n'))
    else searchNameCapture rest

/-- `Wheel._parse_metadata`: `{'name': pattern.search(content).group(1)}`.
When the pattern does not match, `search` returns `None` and `.group(1)`
raises; this failure is modelled as `none`. -/
def parse_metadata (content : String) : Option Metadata :=
  (searchNameCapture content.toList).map fun g =>
    { name := some g.asString, run_requires := [], extras := [] }

/-! ### Metadata extractor (`Wheel.metadata`) -/

/-- The outcome of `ZipFile.open` + `read` on one member: the member's bytes,
a `KeyError` (member not found), or any other I/O failure. -/
inductive ReadResult where
  | found : String → ReadResult
  | notFound : ReadResult
  | ioError : ReadResult
deriving DecidableEq

/-- The failures `Wheel.metadata` can propagate. -/
inductive PyError where
  | keyError : PyError
  | ioError : PyError
  | jsonError : PyError
  | attrError : PyError
  | indexError : PyError
deriving DecidableEq

/-- The fallback block of `Wheel.metadata`: open `{distInfo}/METADATA` (no
handler, so a `KeyError` or I/O failure propagates) and run
`_parse_metadata` on its text. -/
def flatFallback : ReadResult → Except PyError Metadata
  | .found c =>
    match parse_metadata c with
    | some m => .ok m
    | none => .error .attrError
  | .notFound => .error .keyError
  | .ioError => .error .ioError

/-- `Wheel.metadata` given the dist-info directory name: try
`{di}/metadata.json` first; on success return `json.loads` of its bytes
(a decode failure propagates); the `except KeyError: pass` handler falls
back to `{di}/METADATA` only on member-not-found; any other failure while
opening `metadata.json` propagates. -/
def metadataCore (di : String) (read : String → ReadResult)
    (jsonLoads : String → Except Unit Metadata) : Except PyError Metadata :=
  match read (di ++ "/metadata.json") with
  | .found c => (jsonLoads c).mapError fun _ => PyError.jsonError
  | .ioError => .error PyError.ioError
  | .notFound => flatFallback (read (di ++ "/METADATA"))

/-- `Wheel.metadata` from the wheel path: compute `_dist_info()` (whose
`IndexError` propagates) and read the archive. -/
def metadataOf (p : String) (read : String → ReadResult)
    (jsonLoads : String → Except Unit Metadata) : Except PyError Metadata :=
  match dist_info p with
  | some di => metadataCore di read jsonLoads
  | none => .error PyError.indexError

/-! ### Dependency resolver (`Wheel.dependencies`) -/

/-- The character class of `re.split('[ ><=()]', entry)`. -/
def reqSplitClass : List Char := [' ', '>', '<', '=', '(', ')']

/-- `parts[0]` of `re.split('[ ><=()]', entry)`: the bare dependency name.
The split result is provably never empty, so `parts[0]` never raises. -/
def stripName (entry : String) : String :=
  ((pySplitChars reqSplitClass entry.toList).headI).asString

/-- The inner loop of `Wheel.dependencies`: `dependency_set.add(parts[0])`
for each entry of a group's `requires`.  The Python `set` is modelled as a
duplicate-free list built with `List.insert`. -/
def addNames (acc : List String) (g : RequirementGroup) : List String :=
  g.requires.foldl (fun a e => a.insert (stripName e)) acc

/-- The loop of `Wheel.dependencies` over `run_requires`: skip a group whose
`extra` differs from the requested one; then, for a truthy (present and
non-empty) `environment` marker, call the evaluator — an evaluation failure
propagates (there is no handler), `False` skips the group, `True` (like a
falsy marker) adds the group's stripped names to the set. -/
def collectDeps {ε : Type} (extra : Option String) (ev : String → Except ε Bool) :
    List RequirementGroup → List String → Except ε (List String)
  | [], acc => .ok acc
  | g :: gs, acc =>
    if g.extra = extra then
      match g.environment with
      | none => collectDeps extra ev gs (addNames acc g)
      | some m =>
        if m = "" then collectDeps extra ev gs (addNames acc g)
        else
          match ev m with
          | .error e => .error e
          | .ok true => collectDeps extra ev gs (addNames acc g)
          | .ok false => collectDeps extra ev gs acc
    else collectDeps extra ev gs acc

/-- Model of the comparison used by Python `sorted` on strings: code-point
lexicographic order on the character lists, decided structurally. -/
def strLeb : List Char → List Char → Bool
  | [], _ => true
  | _ :: _, [] => false
  | a :: as, b :: bs => if a = b then strLeb as bs else decide (a < b)

/-- The `≤` of Python `sorted` on strings, as a decidable relation that
provably coincides with Lean's `≤` on `String`. -/
def pyStrLe (s t : String) : Prop := strLeb s.toList t.toList = true

instance (s t : String) : Decidable (pyStrLe s t) := by
  unfold pyStrLe; exact inferInstance

/-- `Wheel.dependencies`: collect the set of bare names, then
`sorted(dependency_set)`. -/
def dependencies {ε : Type} (meta : Metadata) (extra : Option String)
    (ev : String → Except ε Bool) : Except ε (List String) :=
  (collectDeps extra ev meta.run_requires []).map fun s =>
    s.insertionSort pyStrLe

/-! ### Archive expander (`Wheel.expand` and its helpers) -/

/-- One entry of `ZipFile.infolist()`: the member name and the raw
`external_attr` word (the stored permission bits are its high 16 bits). -/
structure ZipInfo where
  filename : String
  external_attr : Nat
deriving DecidableEq

/-- `stat.S_ISREG`: the file-type bits equal `S_IFREG`. -/
def S_ISREG (m : Nat) : Bool := (m &&& 0o170000) == 0o100000

/-- `set_extracted_file_to_default_mode_plus_executable`: the mode
`0o777 & ~current_umask() | 0o111` (`Nat.ldiff a b` is `a &&& ~b`). -/
def set_extracted_file_to_default_mode_plus_executable (umask : Nat) : Nat :=
  Nat.ldiff 0o777 umask ||| 0o111

/-- The per-entry permission logic of `Wheel.expand`: directories (names
ending in a separator) are skipped; a member whose stored mode is non-zero,
is a regular file, and has any execute bit is re-chmodded to the default
mode plus executable; every other member keeps the mode extraction gave it
(`defaultMode`). -/
def expandedMode (umask defaultMode : Nat) (info : ZipInfo) : Nat :=
  if endsWithChar info.filename '/' || endsWithChar info.filename '\\' then
    defaultMode
  else
    let mode := info.external_attr >>> 16
    if mode != 0 && S_ISREG mode && (mode &&& 0o111) != 0 then
      set_extracted_file_to_default_mode_plus_executable umask
    else defaultMode

/-! ### Specification-side vocabulary -/

/-- A pattern occurs at index `i` of `l`. -/
def occursAt (pat l : List Char) (i : Nat) : Prop :=
  (l.drop i).take pat.length = pat

instance (pat l : List Char) (i : Nat) : Decidable (occursAt pat l i) := by
  unfold occursAt; exact inferInstance

/-- Spec-side bare name: the leading token of the requirement string up to
the first character of the qualifier class, the whole string when no such
character occurs. -/
def bareName (entry : String) : String :=
  (entry.toList.takeWhile (fun c => !decide (c ∈ reqSplitClass))).asString

/-- A truthy `environment` marker passes evaluation (or there is no marker to
evaluate). -/
def markerPasses {ε : Type} (ev : String → Except ε Bool) : Option String → Prop
  | none => True
  | some m => m = "" ∨ ev m = .ok true

/-- A requirement group is selected by `dependencies`: its `extra` equals the
requested one and its marker (if truthy) evaluates to true. -/
def selects {ε : Type} (extra : Option String) (ev : String → Except ε Bool)
    (g : RequirementGroup) : Prop :=
  g.extra = extra ∧ markerPasses ev g.environment

/-! ### Concrete fixtures used by the witnesses -/

/-- The concrete rich metadata of the spec's test vector: one unconditional
group `["foo>=1.0", "bar"]` and one more mentioning `foo` again. -/
def exMetaBase : Metadata :=
  { name := some "pkg"
    run_requires :=
      [ { extra := none, environment := none, requires := ["foo>=1.0", "bar"] }
      , { extra := none, environment := none, requires := ["foo"] } ]
    extras := [] }

/-- The metadata of the spec's test vector restricted to one group carrying
the extra `"x"`. -/
def exMetaExtra : Metadata :=
  { name := some "pkg"
    run_requires := [{ extra := some "x", environment := none, requires := ["foo"] }]
    extras := ["x"] }

/-- A metadata record whose single group carries an empty (falsy)
environment marker. -/
def exMetaEmptyMarker : Metadata :=
  { name := some "pkg"
    run_requires := [{ extra := none, environment := some "", requires := ["pkg2"] }]
    extras := [] }

/-- A concrete archive whose `metadata.json` member is present and whose
other members all fail to read. -/
def exRead : String → ReadResult := fun s =>
  if s = "d-1.dist-info/metadata.json" then ReadResult.found "record" else ReadResult.ioError

/-- A concrete stand-in for `json.loads`. -/
def exJson : String → Except Unit Metadata := fun _ =>
  Except.ok { name := some "d", run_requires := [], extras := [] }

/-! ### Specification-side descriptions -/

/-- Spec-side description of the resolver output: lexically ascending, no
duplicates, and containing exactly the bare names of the requirement strings
of the selected groups. -/
def depOutputSpec {ε : Type} (meta : Metadata) (extra : Option String)
    (ev : String → Except ε Bool) (l : List String) : Prop :=
  l.Sorted (· ≤ ·) ∧ l.Nodup ∧
    ∀ s : String, s ∈ l ↔
      ∃ g ∈ meta.run_requires, selects extra ev g ∧
        ∃ e ∈ g.requires, s = bareName e

end Whl

namespace Whl

/-! ### Structure of `pySplitChars` -/

/-- A split is the leading delimiter-free run followed by the split of what
comes after the first delimiter. -/
theorem pySplitChars_eq (d : List Char) (l : List Char) :
    pySplitChars d l =
      l.takeWhile (fun c => !decide (c ∈ d)) ::
        (match l.dropWhile (fun c => !decide (c ∈ d)) with
         | [] => []
         | _ :: rest => pySplitChars d rest) := by
  induction l with
  | nil => rfl
  | cons c rest ih =>
    by_cases hc : c ∈ d
    · have h1 : (fun c' => !decide (c' ∈ d)) c = false := by simp [hc]
      simp [pySplitChars, hc, List.takeWhile_cons, List.dropWhile_cons, h1]
    · have h1 : (fun c' => !decide (c' ∈ d)) c = true := by simp [hc]
      simp only [pySplitChars, if_neg hc]
      rw [ih]
      simp [List.takeWhile_cons, List.dropWhile_cons, h1]

/-- A Python `split` never produces an empty list of segments. -/
theorem pySplitChars_ne_nil (d l : List Char) : pySplitChars d l ≠ [] := by
  rw [pySplitChars_eq]; simp

/-- Segment 0 of a split is the text before the first delimiter. -/
theorem pySplitChars_getZero (d l : List Char) :
    (pySplitChars d l)[0]? = some (l.takeWhile (fun c => !decide (c ∈ d))) := by
  rw [pySplitChars_eq]; simp

/-- `headI` of a split is the text before the first delimiter. -/
theorem pySplitChars_headI (d l : List Char) :
    (pySplitChars d l).headI = l.takeWhile (fun c => !decide (c ∈ d)) := by
  rw [pySplitChars_eq]; rfl

/-- Segment 1 of a split: absent when no delimiter occurs, otherwise the
delimiter-free run after the first delimiter. -/
theorem pySplitChars_getOne (d l : List Char) :
    (pySplitChars d l)[1]? =
      match l.dropWhile (fun c => !decide (c ∈ d)) with
      | [] => none
      | _ :: rest => some (rest.takeWhile (fun c => !decide (c ∈ d))) := by
  rw [pySplitChars_eq]
  cases h : l.dropWhile (fun c => !decide (c ∈ d)) with
  | nil => rfl
  | cons a rest => simp [pySplitChars_getZero]

end Whl

namespace Whl

/-- C6 (counterexample): for the basename `foo.whl`, which has only one
hyphen-delimited segment, `distribution` does not fail: `split` always
yields at least one segment, so `parts[0]` succeeds and returns the whole
basename, contrary to the claim that it fails with `MalformedName`. -/
theorem distribution_single_segment_succeeds :
    (wheelParts "foo.whl").length < 2 ∧ distribution "foo.whl" = some "foo.whl" := by
  decide

/-- C6 (amended): `distribution` always succeeds and returns the text before
the first hyphen of the basename (the whole basename when there is no
hyphen); `version` fails exactly when the basename has fewer than two
hyphen-delimited segments, and otherwise returns the segment at index 1
(the text between the first and the second hyphen). -/
theorem identity_segments (p : String) :
    distribution p =
        some (((basename p).toList.takeWhile (fun c => !decide (c = '-'))).asString) ∧
      (version p = none ↔ (wheelParts p).length < 2) ∧
      (2 ≤ (wheelParts p).length →
        version p =
          some (((((basename p).toList.dropWhile (fun c => !decide (c = '-'))).tail).takeWhile
            (fun c => !decide (c = '-'))).asString)) := by
  have hpred : (fun c : Char => !decide (c ∈ (['-'] : List Char))) =
      (fun c : Char => !decide (c = '-')) := by
    funext c; simp
  refine ⟨?_, ?_, ?_⟩
  · rw [distribution, wheelParts, pySplitChars_getZero, hpred]
    rfl
  · rw [version, Option.map_eq_none', List.getElem?_eq_none_iff]
    omega
  · intro h2
    rw [version, wheelParts, pySplitChars_getOne, hpred]
    cases hd : (basename p).toList.dropWhile (fun c => !decide (c = '-')) with
    | nil =>
      exfalso
      have hnone : (wheelParts p)[1]? = none := by
        rw [wheelParts, pySplitChars_getOne, hpred, hd]
      rw [List.getElem?_eq_none_iff] at hnone
      omega
    | cons a rest => rfl

/-- C6 (witness for the amended theorem). -/
theorem identity_segments_witness : version "a-b-c.whl" = some "b" := by
  have h := (identity_segments "a-b-c.whl").2.2 (by decide)
  exact h.trans (by decide)

end Whl

namespace Whl

/-- Converting a character list to a string and back is the identity. -/
theorem toList_asString (l : List Char) : l.asString.toList = l := rfl

/-- C7 (counterexample): `@` is printable ASCII, `distribution` can contain
it (e.g. from basename `a@b-1-py3-none-any.whl`), and `re.sub('[-.+]', '_')`
does not replace it, so the suffix `pypi__a@b_1` does not match
`^[A-Za-z0-9_]+$`. -/
theorem repository_suffix_printable_counterexample :
    (∀ c ∈ ("a@b" ++ "1").toList, 0x20 ≤ c.toNat ∧ c.toNat ≤ 0x7e) ∧
      distribution "a@b-1-py3-none-any.whl" = some "a@b" ∧
      version "a@b-1-py3-none-any.whl" = some "1" ∧
      repositorySuffixOf "a@b" "1" = "pypi__a@b_1" ∧
      ¬ (∀ c ∈ ("pypi__a@b_1").toList, c.isAlphanum = true ∨ c = '_') := by
  decide

/-- C7 (amended): `repositorySuffix` equals `pypi__{distribution}_{version}`
with every `-`, `.`, `+` replaced by `_`; the result matches
`^[A-Za-z0-9_]+$` whenever the distribution and the version contain only
alphanumerics, underscores and the replaced characters `-`, `.`, `+`
(printable ASCII outside that set, e.g. `@`, survives unreplaced). -/
theorem repository_suffix_word_chars (d v : String)
    (h : ∀ c ∈ d.toList ++ v.toList,
      c.isAlphanum = true ∨ c ∈ (['_', '-', '.', '+'] : List Char)) :
    repositorySuffixOf d v =
        (("pypi__" ++ d ++ "_" ++ v).toList.map
          (fun c => if c ∈ (['-', '.', '+'] : List Char) then '_' else c)).asString ∧
      (repositorySuffixOf d v).toList ≠ [] ∧
      ∀ c ∈ (repositorySuffixOf d v).toList, c.isAlphanum = true ∨ c = '_' := by
  have hbase : ("pypi__" ++ d ++ "_" ++ v).toList =
      "pypi__".toList ++ d.toList ++ "_".toList ++ v.toList := rfl
  refine ⟨rfl, ?_, ?_⟩
  · rw [repositorySuffixOf, reSubChars]
    intro hnil
    rw [toList_asString] at hnil
    have := congrArg List.length hnil
    rw [List.length_map, hbase] at this
    simp at this
  · intro c hc
    rw [repositorySuffixOf, reSubChars, toList_asString, List.mem_map] at hc
    obtain ⟨c0, hc0, rfl⟩ := hc
    by_cases hcls : c0 ∈ (['-', '.', '+'] : List Char)
    · right; simp [hcls]
    · rw [if_neg hcls]
      rw [hbase] at hc0
      have hpy : ("pypi__").toList = ['p', 'y', 'p', 'i', '_', '_'] := rfl
      have hus : ("_").toList = ['_'] := rfl
      rw [hpy, hus] at hc0
      rcases List.mem_append.1 hc0 with hc1 | hc1
      · rcases List.mem_append.1 hc1 with hc2 | hc2
        · rcases List.mem_append.1 hc2 with hc3 | hc3
          · fin_cases hc3 <;> simp
          · rcases h c0 (List.mem_append_left _ hc3) with h1 | h1
            · left; exact h1
            · fin_cases h1 <;> simp_all
        · fin_cases hc2; simp
      · rcases h c0 (List.mem_append_right _ hc1) with h1 | h1
        · left; exact h1
        · fin_cases h1 <;> simp_all

/-- C7 (witness for the amended theorem). -/
theorem repository_suffix_word_chars_witness :
    repositorySuffixOf "foo_bar" "1.0" =
        (("pypi__" ++ "foo_bar" ++ "_" ++ "1.0").toList.map
          (fun c => if c ∈ (['-', '.', '+'] : List Char) then '_' else c)).asString ∧
      (repositorySuffixOf "foo_bar" "1.0").toList ≠ [] ∧
      ∀ c ∈ (repositorySuffixOf "foo_bar" "1.0").toList, c.isAlphanum = true ∨ c = '_' :=
  repository_suffix_word_chars "foo_bar" "1.0" (by decide)

end Whl

namespace Whl

/-- The literal searched by `_parse_metadata` is non-empty. -/
theorem nameTag_ne_nil : nameTag ≠ [] := by decide

/-- `searchNameCapture` returns exactly the capture of the leftmost
occurrence of `"Name: "`, with the capture extending to the end of that
line. -/
theorem searchNameCapture_some_iff (l g : List Char) :
    searchNameCapture l = some g ↔
      ∃ i, occursAt nameTag l i ∧ (∀ j < i, ¬ occursAt nameTag l j) ∧
        g = ((l.drop i).drop nameTag.length).takeWhile (fun ch => ch != '\n') := by
  induction l with
  | nil =>
    constructor
    · intro h; simp [searchNameCapture] at h
    · rintro ⟨i, hi, -, -⟩
      rw [occursAt, List.drop_nil, List.take_nil] at hi
      exact absurd hi.symm nameTag_ne_nil
  | cons c rest ih =>
    by_cases hm : List.take nameTag.length (c :: rest) = nameTag
    · have h0 : occursAt nameTag (c :: rest) 0 := by
        rw [occursAt, List.drop_zero]; exact hm
      constructor
      · intro h
        simp only [searchNameCapture, if_pos hm] at h
        refine ⟨0, h0, fun j hj => absurd hj (Nat.not_lt_zero j), ?_⟩
        rw [List.drop_zero]
        exact (Option.some.inj h).symm
      · rintro ⟨i, hi, hmin, hg⟩
        have hi0 : i = 0 := by
          by_contra hne
          exact hmin 0 (Nat.pos_of_ne_zero hne) h0
        subst hi0
        simp only [searchNameCapture, if_pos hm]
        rw [List.drop_zero] at hg
        exact congrArg some hg.symm
    · have h0 : ¬ occursAt nameTag (c :: rest) 0 := by
        rw [occursAt, List.drop_zero]; exact hm
      have hshift : ∀ j, occursAt nameTag (c :: rest) (j + 1) ↔ occursAt nameTag rest j := by
        intro j
        rw [occursAt, occursAt, List.drop_succ_cons]
      simp only [searchNameCapture, if_neg hm]
      rw [ih]
      constructor
      · rintro ⟨i, hi, hmin, hg⟩
        refine ⟨i + 1, (hshift i).2 hi, ?_, ?_⟩
        · intro j hj
          cases j with
          | zero => exact h0
          | succ k =>
            rw [hshift k]
            exact hmin k (by omega)
        · rw [List.drop_succ_cons]
          exact hg
      · rintro ⟨i, hi, hmin, hg⟩
        cases i with
        | zero => exact absurd hi h0
        | succ k =>
          refine ⟨k, (hshift k).1 hi, ?_, ?_⟩
          · intro j hj
            have hj1 := hmin (j + 1) (by omega)
            rw [hshift j] at hj1
            exact hj1
          · rw [List.drop_succ_cons] at hg
            exact hg

/-- `searchNameCapture` fails exactly when the literal `"Name: "` occurs
nowhere in the text. -/
theorem searchNameCapture_none_iff (l : List Char) :
    searchNameCapture l = none ↔ ∀ i, ¬ occursAt nameTag l i := by
  constructor
  · intro h i hi
    have hex : ∃ j, occursAt nameTag l j := ⟨i, hi⟩
    have hsome : searchNameCapture l =
        some (((l.drop (Nat.find hex)).drop nameTag.length).takeWhile (fun ch => ch != '\n')) := by
      rw [searchNameCapture_some_iff]
      exact ⟨Nat.find hex, Nat.find_spec hex, fun j hj => Nat.find_min hex hj, rfl⟩
    rw [h] at hsome
    cases hsome
  · intro h
    cases hs : searchNameCapture l with
    | none => rfl
    | some g =>
      obtain ⟨i, hi, -, -⟩ := (searchNameCapture_some_iff l g).1 hs
      exact absurd hi (h i)

/-- C8: the flat decoder returns the record whose `name` is the capture of
the first match of `Name: (.*)` in the text, and fails (the `search` result
is `None`, so `.group(1)` raises) exactly when no position of the text
matches the pattern. -/
theorem parse_metadata_first_match (content : String) :
    (parse_metadata content = none ↔ ∀ i, ¬ occursAt nameTag content.toList i) ∧
      ∀ m, parse_metadata content = some m →
        ∃ i, occursAt nameTag content.toList i ∧
          (∀ j < i, ¬ occursAt nameTag content.toList j) ∧
          m = { name := some ((((content.toList.drop i).drop nameTag.length).takeWhile
                  (fun ch => ch != '\n')).asString),
                run_requires := [], extras := [] } := by
  constructor
  · rw [parse_metadata, Option.map_eq_none']
    exact searchNameCapture_none_iff content.toList
  · intro m hm
    rw [parse_metadata] at hm
    cases hs : searchNameCapture content.toList with
    | none => rw [hs] at hm; cases hm
    | some g =>
      rw [hs] at hm
      simp only [Option.map_some'] at hm
      obtain ⟨i, hi, hmin, hg⟩ := (searchNameCapture_some_iff _ g).1 hs
      refine ⟨i, hi, hmin, ?_⟩
      rw [← Option.some.inj hm, hg]

/-- C8 (witness). -/
theorem parse_metadata_first_match_witness :
    ∃ i, occursAt nameTag ("Version: 1.0\nName: somepkg\n").toList i ∧
      (∀ j < i, ¬ occursAt nameTag ("Version: 1.0\nName: somepkg\n").toList j) ∧
      ({ name := some "somepkg", run_requires := [], extras := [] } : Metadata) =
        { name := some ((((("Version: 1.0\nName: somepkg\n").toList.drop i).drop
                nameTag.length).takeWhile (fun ch => ch != '\n')).asString),
          run_requires := [], extras := [] } :=
  (parse_metadata_first_match "Version: 1.0\nName: somepkg\n").2
    { name := some "somepkg", run_requires := [], extras := [] } (by decide)

/-- C10: the pattern `Name: (.*)` is unanchored — `parse_metadata` returns
the capture at the leftmost occurrence of the substring `"Name: "` anywhere
in the text, the capture stopping at the end of that line; in particular a
preceding `X-Name: other` line determines the result instead of the real
`Name:` line. -/
theorem parse_metadata_unanchored :
    (∀ (content : String) (i : Nat),
        occursAt nameTag content.toList i →
        (∀ j < i, ¬ occursAt nameTag content.toList j) →
        parse_metadata content =
          some { name := some ((((content.toList.drop i).drop nameTag.length).takeWhile
                    (fun ch => ch != '\n')).asString),
                 run_requires := [], extras := [] }) ∧
      parse_metadata "X-Name: other\nName: real\n" =
        some { name := some "other", run_requires := [], extras := [] } := by
  constructor
  · intro content i hi hmin
    rw [parse_metadata]
    have hsome : searchNameCapture content.toList =
        some (((content.toList.drop i).drop nameTag.length).takeWhile (fun ch => ch != '\n')) := by
      rw [searchNameCapture_some_iff]
      exact ⟨i, hi, hmin, rfl⟩
    rw [hsome]
    rfl
  · decide

/-- C10 (witness). -/
theorem parse_metadata_unanchored_witness :
    parse_metadata "aName: x\nName: real\n" =
      some { name := some "x", run_requires := [], extras := [] } := by
  have h := parse_metadata_unanchored.1 "aName: x\nName: real\n" 1 (by decide) (by decide)
  exact h.trans (by decide)

end Whl

namespace Whl

/-- The source's `parts[0]` equals the spec's leading token up to the first
qualifier character. -/
theorem stripName_eq_bareName (e : String) : stripName e = bareName e := by
  rw [stripName, bareName, pySplitChars_headI]

/-- A requirement string without qualifier characters is kept verbatim. -/
theorem stripName_verbatim (e : String) (h : ∀ c ∈ e.toList, c ∉ reqSplitClass) :
    stripName e = e := by
  rw [stripName, pySplitChars_headI]
  have htw : e.toList.takeWhile (fun c => !decide (c ∈ reqSplitClass)) = e.toList := by
    rw [List.takeWhile_eq_self_iff]
    intro c hc
    simp [h c hc]
  rw [htw]
  rfl

/-- Membership after folding the set-insertions of one group's requirements. -/
theorem mem_foldl_insert (x : String) :
    ∀ (es : List String) (acc : List String),
      x ∈ es.foldl (fun a e => a.insert (stripName e)) acc ↔
        x ∈ acc ∨ ∃ e ∈ es, x = stripName e := by
  intro es
  induction es with
  | nil => intro acc; simp
  | cons e es ih =>
    intro acc
    rw [List.foldl_cons, ih, List.mem_insert_iff]
    constructor
    · rintro ((rfl | hacc) | ⟨e', he', rfl⟩)
      · exact Or.inr ⟨e, List.mem_cons_self e es, rfl⟩
      · exact Or.inl hacc
      · exact Or.inr ⟨e', List.mem_cons_of_mem e he', rfl⟩
    · rintro (hacc | ⟨e', he', rfl⟩)
      · exact Or.inl (Or.inr hacc)
      · rcases List.mem_cons.1 he' with rfl | he2
        · exact Or.inl (Or.inl rfl)
        · exact Or.inr ⟨e', he2, rfl⟩

/-- Membership in the accumulated set after one group. -/
theorem mem_addNames (acc : List String) (g : RequirementGroup) (x : String) :
    x ∈ addNames acc g ↔ x ∈ acc ∨ ∃ e ∈ g.requires, x = stripName e :=
  mem_foldl_insert x g.requires acc

/-- Set-insertions preserve freedom from duplicates. -/
theorem nodup_foldl_insert :
    ∀ (es : List String) (acc : List String), acc.Nodup →
      (es.foldl (fun a e => a.insert (stripName e)) acc).Nodup := by
  intro es
  induction es with
  | nil => intro acc h; exact h
  | cons e es ih => intro acc h; exact ih _ h.insert

/-- The accumulated set after one group is duplicate-free. -/
theorem nodup_addNames (acc : List String) (g : RequirementGroup) (h : acc.Nodup) :
    (addNames acc g).Nodup :=
  nodup_foldl_insert g.requires acc h

end Whl

namespace Whl

/-- A successful run of the `run_requires` loop yields exactly the initial
set plus the stripped names of the selected groups, and preserves freedom
from duplicates. -/
theorem collectDeps_ok_spec {ε : Type} (extra : Option String) (ev : String → Except ε Bool) :
    ∀ (gs : List RequirementGroup) (acc s : List String),
      collectDeps extra ev gs acc = .ok s →
      (acc.Nodup → s.Nodup) ∧
        ∀ x, x ∈ s ↔ x ∈ acc ∨
          ∃ g ∈ gs, selects extra ev g ∧ ∃ e ∈ g.requires, x = stripName e := by
  intro gs
  induction gs with
  | nil =>
    intro acc s h
    simp only [collectDeps] at h
    cases h
    exact ⟨fun hn => hn, fun x => by simp⟩
  | cons g gs ih =>
    intro acc s h
    have step :
        ∀ hnext : collectDeps extra ev gs (addNames acc g) = .ok s,
          selects extra ev g →
          (acc.Nodup → s.Nodup) ∧
            ∀ x, x ∈ s ↔ x ∈ acc ∨
              ∃ g' ∈ g :: gs, selects extra ev g' ∧ ∃ e ∈ g'.requires, x = stripName e := by
      intro hnext hsel
      obtain ⟨hnod, hmem⟩ := ih (addNames acc g) s hnext
      refine ⟨fun hn => hnod (nodup_addNames acc g hn), fun x => ?_⟩
      rw [hmem x, mem_addNames]
      constructor
      · rintro ((hacc | hg) | ⟨g', hg', hsel', he'⟩)
        · exact Or.inl hacc
        · exact Or.inr ⟨g, List.mem_cons_self g gs, hsel, hg⟩
        · exact Or.inr ⟨g', List.mem_cons_of_mem g hg', hsel', he'⟩
      · rintro (hacc | ⟨g', hg', hsel', he'⟩)
        · exact Or.inl (Or.inl hacc)
        · rcases List.mem_cons.1 hg' with rfl | hgs
          · exact Or.inl (Or.inr he')
          · exact Or.inr ⟨g', hgs, hsel', he'⟩
    have skip :
        ∀ hnext : collectDeps extra ev gs acc = .ok s,
          ¬ selects extra ev g →
          (acc.Nodup → s.Nodup) ∧
            ∀ x, x ∈ s ↔ x ∈ acc ∨
              ∃ g' ∈ g :: gs, selects extra ev g' ∧ ∃ e ∈ g'.requires, x = stripName e := by
      intro hnext hnot
      obtain ⟨hnod, hmem⟩ := ih acc s hnext
      refine ⟨hnod, fun x => ?_⟩
      rw [hmem x]
      constructor
      · rintro (hacc | ⟨g', hg', hsel', he'⟩)
        · exact Or.inl hacc
        · exact Or.inr ⟨g', List.mem_cons_of_mem g hg', hsel', he'⟩
      · rintro (hacc | ⟨g', hg', hsel', he'⟩)
        · exact Or.inl hacc
        · rcases List.mem_cons.1 hg' with rfl | hgs
          · exact absurd hsel' hnot
          · exact Or.inr ⟨g', hgs, hsel', he'⟩
    by_cases hx : g.extra = extra
    · cases he : g.environment with
      | none =>
        have hstep : collectDeps extra ev (g :: gs) acc =
            collectDeps extra ev gs (addNames acc g) := by
          simp [collectDeps, hx, he]
        rw [hstep] at h
        exact step h ⟨hx, by rw [he]; trivial⟩
      | some m =>
        by_cases hm : m = ""
        · have hstep : collectDeps extra ev (g :: gs) acc =
              collectDeps extra ev gs (addNames acc g) := by
            simp [collectDeps, hx, he, hm]
          rw [hstep] at h
          exact step h ⟨hx, by rw [he]; exact Or.inl hm⟩
        · cases hev : ev m with
          | error e =>
            have hstep : collectDeps extra ev (g :: gs) acc = .error e := by
              simp [collectDeps, hx, he, hm, hev]
            rw [hstep] at h
            cases h
          | ok b =>
            cases b with
            | true =>
              have hstep : collectDeps extra ev (g :: gs) acc =
                  collectDeps extra ev gs (addNames acc g) := by
                simp [collectDeps, hx, he, hm, hev]
              rw [hstep] at h
              exact step h ⟨hx, by rw [he]; exact Or.inr hev⟩
            | false =>
              have hstep : collectDeps extra ev (g :: gs) acc =
                  collectDeps extra ev gs acc := by
                simp [collectDeps, hx, he, hm, hev]
              rw [hstep] at h
              refine skip h ?_
              rintro ⟨-, hpass⟩
              rw [he] at hpass
              rcases hpass with h1 | h1
              · exact hm h1
              · rw [hev] at h1
                cases h1
    · have hstep : collectDeps extra ev (g :: gs) acc = collectDeps extra ev gs acc := by
        simp [collectDeps, hx]
      rw [hstep] at h
      refine skip h ?_
      rintro ⟨h1, -⟩
      exact hx h1

end Whl

namespace Whl

/-- The structural comparator agrees with lexicographic order on lists. -/
theorem strLeb_iff_lex :
    ∀ x y : List Char, strLeb x y = true ↔ (List.Lex (· < ·) x y ∨ x = y) := by
  intro x
  induction x with
  | nil =>
    intro y
    constructor
    · intro _
      cases y with
      | nil => exact Or.inr rfl
      | cons b bs => exact Or.inl List.Lex.nil
    · intro _; rfl
  | cons a as ih =>
    intro y
    cases y with
    | nil =>
      constructor
      · intro h; exact absurd h (by simp [strLeb])
      · rintro (h | h) <;> cases h
    | cons b bs =>
      by_cases hab : a = b
      · subst hab
        rw [show strLeb (a :: as) (a :: bs) = strLeb as bs from by simp [strLeb]]
        rw [ih bs]
        constructor
        · rintro (h | rfl)
          · exact Or.inl (List.Lex.cons h)
          · exact Or.inr rfl
        · rintro (h | heq)
          · cases h with
            | cons h1 => exact Or.inl h1
            | rel h1 => exact absurd h1 (lt_irrefl a)
          · injection heq with h1 h2
            exact Or.inr h2
      · rw [show strLeb (a :: as) (b :: bs) = decide (a < b) from by simp [strLeb, hab]]
        constructor
        · intro h
          exact Or.inl (List.Lex.rel (of_decide_eq_true h))
        · rintro (h | heq)
          · cases h with
            | cons h1 => exact absurd rfl hab
            | rel h1 => exact decide_eq_true h1
          · injection heq with h1 h2
            exact absurd h1 hab

/-- The comparator of the `sorted` model coincides with Lean's `≤` on
`String` (both are code-point lexicographic). -/
theorem pyStrLe_iff (s t : String) : pyStrLe s t ↔ s ≤ t := by
  rw [pyStrLe, strLeb_iff_lex, String.le_iff_toList_le, le_iff_lt_or_eq]
  exact Iff.rfl

instance : IsTotal String pyStrLe :=
  ⟨fun a b => by
    rw [pyStrLe_iff, pyStrLe_iff]
    exact le_total a b⟩

instance : IsTrans String pyStrLe :=
  ⟨fun a b c hab hbc => by
    rw [pyStrLe_iff] at hab hbc ⊢
    exact le_trans hab hbc⟩

/-- Unpacking a successful `dependencies` run into a successful collection
run sorted with `insertionSort`. -/
theorem dependencies_ok_elim {ε : Type} (meta : Metadata) (extra : Option String)
    (ev : String → Except ε Bool) (l : List String)
    (h : dependencies meta extra ev = .ok l) :
    ∃ s, collectDeps extra ev meta.run_requires [] = .ok s ∧
      l = s.insertionSort pyStrLe := by
  rw [dependencies] at h
  cases hc : collectDeps extra ev meta.run_requires [] with
  | error e => rw [hc] at h; cases h
  | ok s =>
    rw [hc] at h
    simp only [Except.map] at h
    exact ⟨s, rfl, (Except.ok.inj h).symm⟩

/-- C1: a successful `dependencies` call returns a lexically ascending,
duplicate-free list containing exactly the bare names — the leading token of
each requirement string up to the first character of `{space, <, >, =, (, )}`
— of the requirement strings of the selected groups, a string with none of
those characters being kept verbatim. -/
theorem dependencies_bare_names {ε : Type} (meta : Metadata) (extra : Option String)
    (ev : String → Except ε Bool) (l : List String)
    (h : dependencies meta extra ev = .ok l) :
    depOutputSpec meta extra ev l ∧
      ∀ e : String, (∀ c ∈ e.toList, c ∉ reqSplitClass) → stripName e = e := by
  obtain ⟨s, hs, rfl⟩ := dependencies_ok_elim meta extra ev l h
  obtain ⟨hnod, hmem⟩ := collectDeps_ok_spec extra ev meta.run_requires [] s hs
  refine ⟨⟨?_, ?_, ?_⟩, stripName_verbatim⟩
  · exact List.Pairwise.imp (fun h => (pyStrLe_iff _ _).1 h)
      (List.sorted_insertionSort pyStrLe s)
  · exact ((List.perm_insertionSort pyStrLe s).symm).nodup (hnod List.nodup_nil)
  · intro x
    rw [(List.perm_insertionSort pyStrLe s).mem_iff, hmem x]
    simp only [List.not_mem_nil, false_or, stripName_eq_bareName]

/-- C1 (witness). -/
theorem dependencies_bare_names_witness :
    depOutputSpec exMetaBase none (fun _ => (Except.ok true : Except Unit Bool)) ["bar", "foo"] ∧
      ∀ e : String, (∀ c ∈ e.toList, c ∉ reqSplitClass) → stripName e = e :=
  dependencies_bare_names exMetaBase none (fun _ => Except.ok true) ["bar", "foo"] (by decide)

end Whl

namespace Whl

/-- Groups whose `extra` differs from the requested one are invisible to the
collection loop: filtering them away first changes nothing. -/
theorem collectDeps_filter {ε : Type} (extra : Option String) (ev : String → Except ε Bool) :
    ∀ (gs : List RequirementGroup) (acc : List String),
      collectDeps extra ev (gs.filter fun g => decide (g.extra = extra)) acc =
        collectDeps extra ev gs acc := by
  intro gs
  induction gs with
  | nil => intro acc; rfl
  | cons g gs ih =>
    intro acc
    by_cases hx : g.extra = extra
    · rw [List.filter_cons_of_pos (by simp [hx])]
      cases he : g.environment with
      | none => simp [collectDeps, hx, he, ih]
      | some m =>
        by_cases hm : m = ""
        · simp [collectDeps, hx, he, hm, ih]
        · cases hev : ev m with
          | error e => simp [collectDeps, hx, he, hm, hev]
          | ok b => cases b <;> simp [collectDeps, hx, he, hm, hev, ih]
    · rw [List.filter_cons_of_neg (by simp [hx])]
      rw [ih]
      simp [collectDeps, hx]

/-- When no group matches the requested extra the loop returns the
accumulator unchanged (and no error can arise). -/
theorem collectDeps_skip_all {ε : Type} (extra : Option String) (ev : String → Except ε Bool) :
    ∀ (gs : List RequirementGroup) (acc : List String),
      (∀ g ∈ gs, g.extra ≠ extra) →
      collectDeps extra ev gs acc = .ok acc := by
  intro gs
  induction gs with
  | nil => intro acc _; rfl
  | cons g gs ih =>
    intro acc h
    have hx : g.extra ≠ extra := h g (List.mem_cons_self g gs)
    have hstep : collectDeps extra ev (g :: gs) acc = collectDeps extra ev gs acc := by
      simp [collectDeps, hx]
    rw [hstep]
    exact ih acc fun g' hg' => h g' (List.mem_cons_of_mem g hg')

/-- C2: a requirement group is consulted by `dependencies` exactly when its
`extra` field equals the requested extra (`None`/absent on both sides counts
as a match): removing all non-matching groups changes nothing, a matching
unconditional group's names always appear in a successful result, and a
requested extra matching no group yields the empty list, not an error. -/
theorem dependencies_extra_filter {ε : Type} (meta : Metadata) (extra : Option String)
    (ev : String → Except ε Bool) :
    dependencies
        { meta with run_requires := meta.run_requires.filter fun g => decide (g.extra = extra) }
        extra ev = dependencies meta extra ev ∧
      ((∀ g ∈ meta.run_requires, g.extra ≠ extra) → dependencies meta extra ev = .ok []) ∧
      ∀ g ∈ meta.run_requires, g.extra = extra → g.environment = none →
        ∀ l, dependencies meta extra ev = .ok l → ∀ e ∈ g.requires, stripName e ∈ l := by
  refine ⟨?_, ?_, ?_⟩
  · rw [dependencies, dependencies]
    rw [show ({ meta with
        run_requires := meta.run_requires.filter fun g => decide (g.extra = extra) } :
          Metadata).run_requires =
        meta.run_requires.filter fun g => decide (g.extra = extra) from rfl]
    rw [collectDeps_filter]
  · intro h
    rw [dependencies, collectDeps_skip_all extra ev meta.run_requires [] h]
    rfl
  · intro g hg hx he l hl e hee
    obtain ⟨s, hs, rfl⟩ := dependencies_ok_elim meta extra ev l hl
    obtain ⟨-, hmem⟩ := collectDeps_ok_spec extra ev meta.run_requires [] s hs
    rw [(List.perm_insertionSort pyStrLe s).mem_iff, hmem (stripName e)]
    exact Or.inr ⟨g, hg, ⟨hx, by rw [he]; trivial⟩, e, hee, rfl⟩

/-- C2 (witness): requesting the base set when only an `"x"` group exists
yields the empty sequence, not an error. -/
theorem dependencies_extra_filter_witness :
    dependencies exMetaExtra none (fun _ => (Except.ok true : Except Unit Bool)) =
      Except.ok [] :=
  (dependencies_extra_filter exMetaExtra none fun _ => Except.ok true).2.1 (by decide)

/-- C4 (counterexample): a group whose environment marker cannot be
evaluated makes `dependencies` fail — there is no handler around
`pkg_resources.evaluate_marker`, so the evaluation error propagates to the
caller instead of the group being skipped. -/
theorem dependencies_marker_error_fails :
    dependencies
        { name := none
          run_requires :=
            [{ extra := none, environment := some "bogus marker !!", requires := ["foo"] }]
          extras := [] }
        none (fun _ => (Except.error () : Except Unit Bool)) = Except.error () := by
  rfl

/-- C4 (amended): a requirement group whose `extra` matches and whose
truthy environment marker fails to evaluate causes `dependencies` to
propagate that failure to its caller; the group is not silently skipped. -/
theorem dependencies_marker_error_propagates {ε : Type} (name : Option String)
    (extras : List String) (extra : Option String) (ev : String → Except ε Bool)
    (m : String) (reqs : List String) (e : ε)
    (hm : m ≠ "") (hev : ev m = .error e) :
    dependencies
        { name := name
          run_requires := [⟨extra, some m, reqs⟩]
          extras := extras }
        extra ev = Except.error e := by
  simp [dependencies, collectDeps, hm, hev, Except.map]

/-- C4 (witness for the amended theorem). -/
theorem dependencies_marker_error_propagates_witness :
    dependencies
        { name := none
          run_requires :=
            [{ extra := none, environment := some "os_name == ???", requires := ["foo"] }]
          extras := [] }
        none (fun _ => (Except.error 7 : Except Nat Bool)) = Except.error 7 :=
  dependencies_marker_error_propagates none [] none (fun _ => Except.error 7)
    "os_name == ???" ["foo"] 7 (by decide) rfl

end Whl

namespace Whl

/-- When every group's `environment` is the empty string, the loop behaves
as if no group had a marker and never consults the evaluator: the string is
falsy, so `if marker and not evaluate_marker(marker)` short-circuits. -/
theorem collectDeps_empty_marker {ε : Type} (extra : Option String)
    (ev ev' : String → Except ε Bool) :
    ∀ (gs : List RequirementGroup) (acc : List String),
      (∀ g ∈ gs, g.environment = some "") →
      collectDeps extra ev gs acc =
        collectDeps extra ev' (gs.map fun g => { g with environment := none }) acc := by
  intro gs
  induction gs with
  | nil => intro acc _; rfl
  | cons g gs ih =>
    intro acc h
    have he : g.environment = some "" := h g (List.mem_cons_self g gs)
    have hrest : ∀ g' ∈ gs, g'.environment = some "" :=
      fun g' hg' => h g' (List.mem_cons_of_mem g hg')
    rw [List.map_cons]
    by_cases hx : g.extra = extra
    · have h1 : collectDeps extra ev (g :: gs) acc =
          collectDeps extra ev gs (addNames acc g) := by
        simp [collectDeps, hx, he]
      have h2 : collectDeps extra ev'
          (({ g with environment := none } : RequirementGroup) ::
            gs.map fun g' => { g' with environment := none }) acc =
          collectDeps extra ev' (gs.map fun g' => { g' with environment := none })
            (addNames acc g) := by
        simp [collectDeps, hx]
        rfl
      rw [h1, h2, ih (addNames acc g) hrest]
    · have h1 : collectDeps extra ev (g :: gs) acc = collectDeps extra ev gs acc := by
        simp [collectDeps, hx]
      have h2 : collectDeps extra ev'
          (({ g with environment := none } : RequirementGroup) ::
            gs.map fun g' => { g' with environment := none }) acc =
          collectDeps extra ev' (gs.map fun g' => { g' with environment := none }) acc := by
        simp [collectDeps, hx]
      rw [h1, h2, ih acc hrest]

/-- A run over groups without markers never fails. -/
theorem collectDeps_no_marker_ok {ε : Type} (extra : Option String)
    (ev : String → Except ε Bool) :
    ∀ (gs : List RequirementGroup) (acc : List String),
      (∀ g ∈ gs, g.environment = none) →
      ∃ s, collectDeps extra ev gs acc = .ok s := by
  intro gs
  induction gs with
  | nil => intro acc _; exact ⟨acc, rfl⟩
  | cons g gs ih =>
    intro acc h
    have he : g.environment = none := h g (List.mem_cons_self g gs)
    have hrest : ∀ g' ∈ gs, g'.environment = none :=
      fun g' hg' => h g' (List.mem_cons_of_mem g hg')
    by_cases hx : g.extra = extra
    · have h1 : collectDeps extra ev (g :: gs) acc =
          collectDeps extra ev gs (addNames acc g) := by
        simp [collectDeps, hx, he]
      rw [h1]
      exact ih (addNames acc g) hrest
    · have h1 : collectDeps extra ev (g :: gs) acc = collectDeps extra ev gs acc := by
        simp [collectDeps, hx]
      rw [h1]
      exact ih acc hrest

/-- C9: when every group's `environment` field is present but is the empty
string, `dependencies` never invokes the marker evaluator (any two
evaluators give the same result), behaves as if the groups had no marker
(inclusion is subject only to the extra match), and always succeeds. -/
theorem dependencies_empty_marker {ε : Type} (meta : Metadata) (extra : Option String)
    (ev ev' : String → Except ε Bool)
    (h : ∀ g ∈ meta.run_requires, g.environment = some "") :
    dependencies meta extra ev = dependencies meta extra ev' ∧
      dependencies meta extra ev =
        dependencies
          { meta with run_requires := meta.run_requires.map fun g =>
              { g with environment := none } }
          extra ev ∧
      ∃ l, dependencies meta extra ev = .ok l := by
  have hbase : ∀ ev'' : String → Except ε Bool,
      dependencies meta extra ev'' =
        dependencies
          { meta with run_requires := meta.run_requires.map fun g =>
              { g with environment := none } }
          extra ev := by
    intro ev''
    rw [dependencies, dependencies]
    rw [collectDeps_empty_marker extra ev'' ev meta.run_requires [] h]
  refine ⟨(hbase ev).trans (hbase ev').symm, hbase ev, ?_⟩
  have hnone : ∀ g ∈ meta.run_requires.map fun g => { g with environment := none },
      g.environment = (none : Option String) := by
    intro g' hg'
    rw [List.mem_map] at hg'
    obtain ⟨g0, -, rfl⟩ := hg'
    rfl
  obtain ⟨s, hs⟩ :=
    collectDeps_no_marker_ok extra ev
      (meta.run_requires.map fun g => { g with environment := none }) [] hnone
  refine ⟨s.insertionSort pyStrLe, ?_⟩
  rw [hbase ev, dependencies]
  rw [show ({ meta with run_requires := meta.run_requires.map fun g =>
      { g with environment := none } } : Metadata).run_requires =
      meta.run_requires.map fun g => { g with environment := none } from rfl]
  rw [hs]
  rfl

/-- C9 (witness): even an always-failing evaluator is never consulted. -/
theorem dependencies_empty_marker_witness :
    ∃ l, dependencies exMetaEmptyMarker none
      (fun _ => (Except.error () : Except Unit Bool)) = Except.ok l :=
  (dependencies_empty_marker exMetaEmptyMarker none (fun _ => Except.error ())
    (fun _ => Except.ok false) (by decide)).2.2

end Whl

namespace Whl

/-- C3: `metadata` consults exactly one encoding.  When `metadata.json` is
present its parsed record is returned directly and the `METADATA` member is
never read (the result is independent of it); an I/O failure while opening
`metadata.json` propagates without attempting the fallback; the flat
`METADATA` member is consulted exactly when `metadata.json` is absent
(member-not-found). -/
theorem metadata_two_encodings (di : String) (read read' : String → ReadResult)
    (jsonLoads : String → Except Unit Metadata) :
    (read (di ++ "/metadata.json") = read' (di ++ "/metadata.json") →
      read (di ++ "/metadata.json") ≠ ReadResult.notFound →
      metadataCore di read jsonLoads = metadataCore di read' jsonLoads) ∧
      (∀ c, read (di ++ "/metadata.json") = .found c →
        metadataCore di read jsonLoads = (jsonLoads c).mapError fun _ => PyError.jsonError) ∧
      (read (di ++ "/metadata.json") = .ioError →
        metadataCore di read jsonLoads = .error PyError.ioError) ∧
      (read (di ++ "/metadata.json") = .notFound →
        metadataCore di read jsonLoads = flatFallback (read (di ++ "/METADATA"))) := by
  refine ⟨?_, ?_, ?_, ?_⟩
  · intro heq hnf
    rw [metadataCore, metadataCore, ← heq]
    cases h : read (di ++ "/metadata.json") with
    | found c => rfl
    | ioError => rfl
    | notFound => exact absurd h hnf
  · intro c hc
    rw [metadataCore, hc]
  · intro hc
    rw [metadataCore, hc]
  · intro hc
    rw [metadataCore, hc]

/-- C3 (witness). -/
theorem metadata_two_encodings_witness :
    metadataCore "d-1.dist-info" exRead exJson =
      (exJson "record").mapError fun _ => PyError.jsonError :=
  (metadata_two_encodings "d-1.dist-info" exRead exRead exJson).2.1 "record" (by decide)

end Whl

namespace Whl

/-- Bit `i` of the constant `0o111` is set exactly for the three execute
positions 0, 3 and 6. -/
theorem testBit_0o111 (i : Nat) :
    Nat.testBit 0o111 i = (decide (i = 0) || decide (i = 3) || decide (i = 6)) := by
  match i with
  | 0 => decide
  | 1 => decide
  | 2 => decide
  | 3 => decide
  | 4 => decide
  | 5 => decide
  | 6 => decide
  | n + 7 =>
    have hlt : (0o111 : Nat) < 2 ^ (n + 7) := by
      calc (0o111 : Nat) < 2 ^ 7 := by norm_num
      _ ≤ 2 ^ (n + 7) := Nat.pow_le_pow_right (by norm_num) (by omega)
    rw [Nat.testBit_lt_two_pow hlt]
    have h0 : ¬(n + 7 = 0) := by omega
    have h3 : ¬(n + 7 = 3) := by omega
    have h6 : ¬(n + 7 = 6) := by omega
    simp [h0, h3, h6]

/-- C5: after `expand`, a non-directory member whose stored mode (the high
16 bits of `external_attr`) marks a regular file with any execute bit is
re-chmodded to the mode whose bit `i` is set exactly when `i` is below 9 and
not masked by the umask (`0o777` with the umask bits cleared) or `i` is one
of the three execute positions (the `| 0o111`); directories and members
without a stored execute bit keep the mode extraction gave them. -/
theorem expand_exec_mode (umask dflt : Nat) (info : ZipInfo) :
    ((endsWithChar info.filename '/' || endsWithChar info.filename '\\') = false →
      S_ISREG (info.external_attr >>> 16) = true →
      (info.external_attr >>> 16) &&& 0o111 ≠ 0 →
      ∀ i, (expandedMode umask dflt info).testBit i =
        ((decide (i < 9) && !umask.testBit i) ||
          decide (i = 0) || decide (i = 3) || decide (i = 6))) ∧
      ((endsWithChar info.filename '/' || endsWithChar info.filename '\\') = true ∨
        S_ISREG (info.external_attr >>> 16) = false ∨
        (info.external_attr >>> 16) &&& 0o111 = 0 →
        expandedMode umask dflt info = dflt) := by
  constructor
  · intro hdir hreg hexe i
    have hmode0 : (info.external_attr >>> 16) != 0 := by
      rw [bne_iff_ne]
      intro h0
      rw [h0] at hreg
      exact absurd hreg (by decide)
    have hexe' : ((info.external_attr >>> 16) &&& 0o111) != 0 := by
      rw [bne_iff_ne]; exact hexe
    have hval : expandedMode umask dflt info =
        set_extracted_file_to_default_mode_plus_executable umask := by
      rw [expandedMode, if_neg (by rw [hdir]; exact Bool.false_ne_true)]
      rw [if_pos (by rw [hmode0, hreg, hexe']; rfl)]
    rw [hval, set_extracted_file_to_default_mode_plus_executable,
      Nat.testBit_lor, Nat.testBit_ldiff]
    have h777 : Nat.testBit 0o777 i = decide (i < 9) := by
      have h9 : (0o777 : Nat) = 2 ^ 9 - 1 := by norm_num
      rw [h9, Nat.testBit_two_pow_sub_one]
    rw [h777, testBit_0o111]
    simp [Bool.or_assoc]
  · intro h
    rcases h with hdir | hreg | hexe
    · simp [expandedMode, hdir]
    · simp [expandedMode, hreg]
    · simp [expandedMode, hexe]

/-- C5 (witness): a `bin/tool` member stored with mode `0o100755` under
umask `0o022`. -/
theorem expand_exec_mode_witness :
    (expandedMode 0o022 0o644 ⟨"bin/tool", 0o100755 * 65536⟩).testBit 1 =
      ((decide (1 < 9) && !(0o022 : Nat).testBit 1) ||
        decide (1 = 0) || decide (1 = 3) || decide (1 = 6)) :=
  (expand_exec_mode 0o022 0o644 ⟨"bin/tool", 0o100755 * 65536⟩).1
    (by decide) (by decide) (by decide) 1

end Whl
